import Mathlib

/-!
# Verification of the `gans` adversarial-training repository

This file gives a shallow embedding, in Lean 4, of the training-orchestration
core of the `gans` repository (Go), and proves properties of that embedding.

Conventions used throughout:

* Go `float64` values are modelled by exact rationals `ℚ` wherever the code
  performs only field operations, and by real numbers `ℝ` where the code
  applies transcendental functions (`math.Exp`, the hyperbolic-tangent
  activation).
* The external autodiff / layer / serializer collaborators (autofunc,
  neuralnet, rnn, serializer packages) are out of scope for the repository;
  where a repository function calls into them, the collaborator is modelled
  by an explicit argument (e.g. the softmax output vector, an abstract
  back-propagation function) or by the value it is documented to round-trip.
* Mutable loops are translated to structural recursion; the gradient map
  `autofunc.Gradient` (a Go map written in insertion order) is modelled as an
  association list in which a later write shadows an earlier binding.
-/

namespace Gans

/-! ## Policy-gradient `Recurrent.Gradient` alternation scheduler

Embedding of the scheduling part of `Recurrent.Gradient` (recurrent.go,
policy-gradient variant):

```go
subIdx := r.iterIdx % (r.GenIterations + r.DiscIterations)
r.iterIdx++
if subIdx < r.DiscIterations { ... train discriminator ... }
else { ... train generator ... }
```
-/

/-- `trainsDisc g k idx` is the branch condition `subIdx < r.DiscIterations`
of `Recurrent.Gradient`, where `subIdx = idx % (g + k)` is taken from the
counter value `idx` before the increment. -/
def trainsDisc (genIterations discIterations idx : ℕ) : Bool :=
  decide (idx % (genIterations + discIterations) < discIterations)

/-- One call of `Recurrent.Gradient` as it affects the alternation state:
it returns the phase chosen for this call (`true` = discriminator phase)
and the incremented counter. -/
def gradientStep (genIterations discIterations idx : ℕ) : Bool × ℕ :=
  (trainsDisc genIterations discIterations idx, idx + 1)

theorem filter_mod_lt_card (n k : ℕ) (hn : 0 < n) (hk : k ≤ n) (i : ℕ) :
    ((Finset.range n).filter (fun t => (i + t) % n < k)).card = k := by
  have ha : i % n < n := Nat.mod_lt _ hn
  have key : ((Finset.range n).filter (fun t => (i + t) % n < k)).card =
      (Finset.range k).card := by
    apply Finset.card_bij' (fun t _ => (i + t) % n)
      (fun j _ => (j + (n - i % n)) % n)
    · intro t ht
      rw [Finset.mem_filter] at ht
      exact Finset.mem_range.2 ht.2
    · intro j hj
      rw [Finset.mem_range] at hj
      have hmem : (j + (n - i % n)) % n < n := Nat.mod_lt _ hn
      rw [Finset.mem_filter, Finset.mem_range]
      refine ⟨hmem, ?_⟩
      have h1 : (i + (j + (n - i % n)) % n) % n = (i + (j + (n - i % n))) % n :=
        Nat.add_mod_mod _ _ _
      have h2 : (i + (j + (n - i % n))) % n = (i % n + (j + (n - i % n))) % n := by
        conv_lhs => rw [← Nat.mod_add_mod]
      have h3 : i % n + (j + (n - i % n)) = j + n := by omega
      rw [h1, h2, h3, Nat.add_mod_right, Nat.mod_eq_of_lt (lt_of_lt_of_le hj hk)]
      exact hj
    · intro t ht
      rw [Finset.mem_filter, Finset.mem_range] at ht
      have h1 : ((i + t) % n + (n - i % n)) % n = (i + t + (n - i % n)) % n :=
        Nat.mod_add_mod _ _ _
      have h2 : (i + t + (n - i % n)) % n = (i % n + (t + (n - i % n))) % n := by
        conv_lhs => rw [Nat.add_assoc, ← Nat.mod_add_mod]
      have h3 : i % n + (t + (n - i % n)) = t + n := by omega
      rw [h1, h2, h3, Nat.add_mod_right, Nat.mod_eq_of_lt ht.1]
    · intro j hj
      rw [Finset.mem_range] at hj
      have h1 : (i + (j + (n - i % n)) % n) % n = (i + (j + (n - i % n))) % n :=
        Nat.add_mod_mod _ _ _
      have h2 : (i + (j + (n - i % n))) % n = (i % n + (j + (n - i % n))) % n := by
        conv_lhs => rw [← Nat.mod_add_mod]
      have h3 : i % n + (j + (n - i % n)) = j + n := by omega
      rw [h1, h2, h3, Nat.add_mod_right, Nat.mod_eq_of_lt (lt_of_lt_of_le hj hk)]
  rw [key, Finset.card_range]

/-- C1: each call to the policy-gradient `Recurrent.Gradient` increments
`iterIdx` by exactly one and trains the discriminator iff the pre-increment
residue `iterIdx % (genIterations + discIterations)` is below
`discIterations`; hence over any `g + k` consecutive calls exactly `k` calls
train the discriminator and exactly `g` calls train the generator, the
choice at each call depending only on the counter residue. -/
theorem recurrent_alternation_schedule (g k : ℕ) (h : 0 < g + k) (i : ℕ) :
    (gradientStep g k i).2 = i + 1 ∧
    ((gradientStep g k i).1 = true ↔ i % (g + k) < k) ∧
    ((Finset.range (g + k)).filter
      (fun t => (gradientStep g k (i + t)).1 = true)).card = k ∧
    ((Finset.range (g + k)).filter
      (fun t => (gradientStep g k (i + t)).1 = false)).card = g := by
  refine ⟨rfl, by simp [gradientStep, trainsDisc], ?_, ?_⟩
  · have := filter_mod_lt_card (g + k) k h (Nat.le_add_left _ _) i
    simpa [gradientStep, trainsDisc] using this
  · have hpos : ((Finset.range (g + k)).filter
        (fun t => (gradientStep g k (i + t)).1 = true)).card = k := by
      have := filter_mod_lt_card (g + k) k h (Nat.le_add_left _ _) i
      simpa [gradientStep, trainsDisc] using this
    have hsplit := Finset.filter_card_add_filter_neg_card_eq_card
      (s := Finset.range (g + k))
      (p := fun t => (gradientStep g k (i + t)).1 = true)
    have hcompl : ((Finset.range (g + k)).filter
        (fun t => ¬ (gradientStep g k (i + t)).1 = true)).card =
        ((Finset.range (g + k)).filter
        (fun t => (gradientStep g k (i + t)).1 = false)).card := by
      congr 1
      apply Finset.filter_congr
      intro t _
      simp
    rw [Finset.card_range] at hsplit
    omega

/-- Witness for `recurrent_alternation_schedule` at `g = 2`, `k = 3`,
starting counter `i = 5`. -/
theorem recurrent_alternation_schedule_witness :
    (gradientStep 2 3 5).2 = 6 ∧
    ((gradientStep 2 3 5).1 = true ↔ 5 % 5 < 3) ∧
    ((Finset.range 5).filter (fun t => (gradientStep 2 3 (5 + t)).1 = true)).card = 3 ∧
    ((Finset.range 5).filter (fun t => (gradientStep 2 3 (5 + t)).1 = false)).card = 2 :=
  recurrent_alternation_schedule 2 3 (by decide) 5

/-! ## `Recurrent.sampleReward` discounted cumulative reward

Embedding of the inner loop of `Recurrent.sampleReward` (recurrent.go,
policy-gradient variant):

```go
var cumulative float64
cr := make([]linalg.Vector, len(outSeq))
for j := len(outSeq) - 1; j >= 0; j-- {
    cumulative += outSeq[j][0]
    cr[j] = sv[i][j].Scale(-cumulative)
    if r.DiscountFactor != 0 {
        cumulative *= r.DiscountFactor
    }
}
```

The per-timestep reward `outSeq[j][0]` (the sigmoid of the discriminator
output on the sampled one-hot sequence) is taken as an abstract rational
list `rewards`.  `discountedCumulative d rewards` returns the list of
values `cumulative` holds right after the `+=` at each index `j` (the
magnitude used in `cr[j]`), paired with the final accumulator value. -/

/-- The backward scan of `Recurrent.sampleReward`.  The first component
lists, front to back, the cumulative reward used at each timestep; the
second component is the running accumulator left for the next (earlier)
timestep, i.e. the cumulative value after the conditional discounting. -/
def discountedCumulative (d : ℚ) : List ℚ → List ℚ × ℚ
  | [] => ([], 0)
  | r :: rest =>
    let p := discountedCumulative d rest
    let cumulative := p.2 + r
    (cumulative :: p.1, if d ≠ 0 then cumulative * d else cumulative)

/-- `sampleReward`'s returned sequences: each sampled one-hot vector scaled
by `-1` times the cumulative reward of its timestep
(`cr[j] = sv[i][j].Scale(-cumulative)`). -/
def sampleRewardSeq (d : ℚ) (sv : List (List ℚ)) (rewards : List ℚ) :
    List (List ℚ) :=
  List.zipWith (fun v c => v.map (fun x => x * (-c)))
    sv (discountedCumulative d rewards).1

theorem discountedCumulative_length (d : ℚ) (rs : List ℚ) :
    (discountedCumulative d rs).1.length = rs.length := by
  induction rs with
  | nil => rfl
  | cons r rest ih => simp [discountedCumulative, ih]

theorem discountedCumulative_snd (d : ℚ) (rs : List ℚ) :
    (discountedCumulative d rs).2 =
      (if d = 0 then 1 else d) * (discountedCumulative d rs).1.headD 0 := by
  cases rs with
  | nil => simp [discountedCumulative]
  | cons r rest =>
    by_cases hd : d = 0 <;> simp [discountedCumulative, hd, mul_comm]

/-- C3: for every discount factor `d ∈ (0,1]` the cumulative rewards of
`Recurrent.sampleReward` satisfy
`cumulative[t] = reward[t] + d * cumulative[t+1]` for every timestep before
the last, the last cumulative reward equals the last reward, and a
`DiscountFactor` of exactly `0` produces the same scan as a factor of `1`. -/
theorem sampleReward_discount_recurrence (d : ℚ) (hd0 : 0 < d) (_hd1 : d ≤ 1)
    (rs : List ℚ) :
    (∀ t, t + 1 < rs.length →
      (discountedCumulative d rs).1.getD t 0 =
        rs.getD t 0 + d * (discountedCumulative d rs).1.getD (t + 1) 0) ∧
    (rs ≠ [] →
      (discountedCumulative d rs).1.getD (rs.length - 1) 0 =
        rs.getD (rs.length - 1) 0) ∧
    discountedCumulative 0 rs = discountedCumulative 1 rs := by
  have hdne : d ≠ 0 := ne_of_gt hd0
  refine ⟨?_, ?_, ?_⟩
  · intro t ht
    induction rs generalizing t with
    | nil => simp at ht
    | cons r rest ih =>
      cases t with
      | zero =>
        simp only [List.length_cons] at ht
        have hrest : rest ≠ [] := by
          intro hnil
          rw [hnil] at ht
          simp at ht
        have hlen : 0 < (discountedCumulative d rest).1.length := by
          rw [discountedCumulative_length]
          exact List.length_pos.2 hrest
        have hsnd := discountedCumulative_snd d rest
        rw [if_neg hdne] at hsnd
        have hhead : (discountedCumulative d rest).1.headD 0 =
            (discountedCumulative d rest).1.getD 0 0 := by
          cases h : (discountedCumulative d rest).1 with
          | nil => rw [h] at hlen; simp at hlen
          | cons a l => simp
        simp only [discountedCumulative, List.getD_cons_zero, List.getD_cons_succ]
        rw [hsnd, hhead]
        ring
      | succ t =>
        simp only [List.length_cons] at ht
        have := ih (t := t) (by omega)
        simpa [discountedCumulative] using this
  · intro hne
    induction rs with
    | nil => exact absurd rfl hne
    | cons r rest ih =>
      cases rest with
      | nil => simp [discountedCumulative]
      | cons r2 rest2 =>
        have := ih (by simp)
        simp only [List.length_cons, Nat.add_sub_cancel] at this ⊢
        simpa [discountedCumulative] using this
  · induction rs with
    | nil => rfl
    | cons r rest ih => simp [discountedCumulative, ih]

/-- Witness for `sampleReward_discount_recurrence` at `d = 1/2`,
`rewards = [3, 4, 5]`. -/
theorem sampleReward_discount_recurrence_witness :
    (discountedCumulative (1/2) [3, 4, 5]).1.getD 0 0 =
      (3 : ℚ) + (1/2) * (discountedCumulative (1/2) [3, 4, 5]).1.getD 1 0 ∧
    (discountedCumulative (1/2) [3, 4, 5]).1.getD 2 0 = (5 : ℚ) ∧
    discountedCumulative 0 [3, 4, 5] = discountedCumulative 1 [3, 4, 5] := by
  have h := sampleReward_discount_recurrence (1/2) (by norm_num) (by norm_num)
    [3, 4, 5]
  exact ⟨h.1 0 (by decide), h.2.1 (by decide), h.2.2⟩

/-! ## `OneHotLayer` (demo/mnist_gen/main.go)

```go
func (_ OneHotLayer) Apply(in autofunc.Result) autofunc.Result {
    if len(in.Output()) == 0 { return in }
    softmax := autofunc.Softmax{}
    sm := softmax.Apply(in)
    idx := chooseRandom(sm.Output())
    mask := make(linalg.Vector, len(sm.Output()))
    mask[idx] = 1 / sm.Output()[idx]
    return autofunc.Mul(&autofunc.Variable{Vector: mask}, sm)
}

func chooseRandom(in linalg.Vector) int {
    n := rand.Float64()
    for i, x := range in {
        n -= x
        if n < 0 { return i }
    }
    return len(in) - 1
}
```

The softmax is an operation of the external autofunc collaborator; the layer
is therefore embedded as a function of the softmax output vector `sm`
(every softmax output is a nonempty vector of strictly positive entries
summing to one — the positivity is taken as a hypothesis where needed) and
of the uniform draw `u` standing for `rand.Float64()`. -/

/-- The cumulative-subtraction loop of `chooseRandom`: subtract each entry
from the running remainder in order and return the index where it first
goes negative (`none` when it never does). -/
def chooseRandomAux (n : ℚ) : List ℚ → Option ℕ
  | [] => none
  | x :: rest =>
    if n - x < 0 then some 0
    else (chooseRandomAux (n - x) rest).map (· + 1)

/-- `chooseRandom` with draw `u`: the loop above, falling back to the LAST
index `len(in) - 1` when the remainder never goes negative.  The result is
an integer because the Go fallback is `len(in) - 1`, which is `-1` on an
empty vector. -/
def chooseRandom (u : ℚ) (ps : List ℚ) : ℤ :=
  match chooseRandomAux u ps with
  | some i => (i : ℤ)
  | none => (ps.length : ℤ) - 1

/-- The mask vector built by `OneHotLayer.Apply`: zero everywhere except
`1 / sm[idx]` at the chosen index. -/
def oneHotMask (u : ℚ) (sm : List ℚ) : List ℚ :=
  (List.range sm.length).map
    (fun (i : ℕ) => if (i : ℤ) = chooseRandom u sm then 1 / sm.getD i 0 else 0)

/-- `OneHotLayer.Apply` on the softmax output `sm`: the elementwise product
`Mul(mask, sm)` (with the early return on an empty input). -/
def oneHotApply (u : ℚ) (sm : List ℚ) : List ℚ :=
  if sm.isEmpty then sm
  else List.zipWith (· * ·) (oneHotMask u sm) sm

theorem chooseRandomAux_lt {n : ℚ} {ps : List ℚ} {i : ℕ}
    (h : chooseRandomAux n ps = some i) : i < ps.length := by
  induction ps generalizing n i with
  | nil => simp [chooseRandomAux] at h
  | cons x rest ih =>
    rw [chooseRandomAux] at h
    by_cases hneg : n - x < 0
    · rw [if_pos hneg] at h
      cases h
      simp
    · rw [if_neg hneg] at h
      cases hrec : chooseRandomAux (n - x) rest with
      | none => rw [hrec] at h; simp at h
      | some j =>
        rw [hrec] at h
        have hj : j + 1 = i := by simpa using h
        have := ih hrec
        simp only [List.length_cons]
        omega

theorem chooseRandom_eq_of_none {u : ℚ} {ps : List ℚ}
    (h : chooseRandomAux u ps = none) :
    chooseRandom u ps = (ps.length : ℤ) - 1 := by
  unfold chooseRandom
  rw [h]

theorem chooseRandom_eq_of_some {u : ℚ} {ps : List ℚ} {i : ℕ}
    (h : chooseRandomAux u ps = some i) :
    chooseRandom u ps = (i : ℤ) := by
  unfold chooseRandom
  rw [h]

theorem chooseRandom_bounds (u : ℚ) (ps : List ℚ) (hne : ps ≠ []) :
    0 ≤ chooseRandom u ps ∧ chooseRandom u ps < (ps.length : ℤ) := by
  have hlen : 0 < ps.length := List.length_pos.2 hne
  cases h : chooseRandomAux u ps with
  | none =>
    rw [chooseRandom_eq_of_none h]
    omega
  | some i =>
    have hi := chooseRandomAux_lt h
    rw [chooseRandom_eq_of_some h]
    constructor
    · exact Int.ofNat_nonneg i
    · exact_mod_cast hi

/-- C4 counterexample: at softmax output `[1/2, 1/2]` and draw `u = 3/10`
the chosen index is `0` with probability `1/2`, but the returned vector is
`[1, 0]` — the nonzero entry is `1`, not `1 / p_chosen = 2` as the claim
states. -/
theorem oneHotLayer_value_counterexample :
    oneHotApply (3/10) [1/2, 1/2] = [1, 0] ∧
    chooseRandom (3/10) [(1/2 : ℚ), 1/2] = 0 ∧
    (oneHotApply (3/10) [1/2, 1/2]).getD 0 0 ≠
      1 / (([(1/2 : ℚ), 1/2]).getD 0 0) := by
  have haux : chooseRandomAux (3/10) [(1/2 : ℚ), 1/2] = some 0 := by
    rw [chooseRandomAux, if_pos (by norm_num)]
  have hchoose : chooseRandom (3/10) [(1/2 : ℚ), 1/2] = 0 := by
    rw [chooseRandom_eq_of_some haux]
    rfl
  have happ : oneHotApply (3/10) [(1/2 : ℚ), 1/2] = [1, 0] := by
    have hrange : List.range 2 = [0, 1] := rfl
    simp only [oneHotApply, oneHotMask, hchoose, List.length_cons,
      List.length_nil, List.isEmpty_cons, hrange, List.map_cons, List.map_nil,
      List.zipWith_cons_cons, List.zipWith_nil_left]
    norm_num
  exact ⟨happ, hchoose, by rw [happ]; norm_num⟩

/-- C4 (amended): for every nonempty softmax output (all entries positive),
`OneHotLayer.Apply` returns the vector that is exactly one-hot at the
stochastically chosen index `chooseRandom u sm`, with the nonzero entry
equal to `1` (since `(1 / p_chosen) * p_chosen = 1`); the factor
`1 / p_chosen` sits in the mask vector, which carries it to the gradient of
the chosen coordinate. -/
theorem oneHotLayer_one_hot (u : ℚ) (sm : List ℚ) (hne : sm ≠ [])
    (hpos : ∀ x ∈ sm, 0 < x) :
    ∃ idx : ℕ, idx < sm.length ∧ (idx : ℤ) = chooseRandom u sm ∧
      oneHotApply u sm =
        (List.range sm.length).map (fun j => if j = idx then 1 else 0) ∧
      (oneHotMask u sm).getD idx 0 = 1 / sm.getD idx 0 := by
  obtain ⟨hge, hlt⟩ := chooseRandom_bounds u sm hne
  refine ⟨(chooseRandom u sm).toNat, ?_, ?_, ?_, ?_⟩
  · omega
  · omega
  · have hnotempty : sm.isEmpty = false := by
      cases sm with
      | nil => exact absurd rfl hne
      | cons a l => rfl
    have happly : oneHotApply u sm = List.zipWith (· * ·) (oneHotMask u sm) sm := by
      rw [oneHotApply, hnotempty]
      rfl
    rw [happly]
    have hmasklen : (oneHotMask u sm).length = sm.length := by
      simp [oneHotMask]
    apply List.ext_getElem
    · simp [hmasklen]
    · intro j h1 h2
      have hj : j < sm.length := by simpa [hmasklen] using h1
      have hj2 : j < (oneHotMask u sm).length := by
        rw [hmasklen]
        exact hj
      have hmaskj : (oneHotMask u sm)[j] =
          if (j : ℤ) = chooseRandom u sm then 1 / sm.getD j 0 else 0 := by
        simp [oneHotMask]
      rw [List.getElem_zipWith, List.getElem_map, List.getElem_range, hmaskj]
      by_cases hcase : (j : ℤ) = chooseRandom u sm
      · have hjidx : j = (chooseRandom u sm).toNat := by omega
        rw [if_pos hcase, if_pos hjidx]
        have hgetd : sm.getD j 0 = sm[j] := List.getD_eq_getElem sm 0 hj
        rw [hgetd]
        have hposj : 0 < sm[j] := hpos _ (List.getElem_mem hj)
        field_simp
      · have hjidx : ¬ j = (chooseRandom u sm).toNat := by omega
        rw [if_neg hcase, if_neg hjidx, zero_mul]
  · have hidxlt : (chooseRandom u sm).toNat < sm.length := by omega
    have hidxlt2 : (chooseRandom u sm).toNat < (oneHotMask u sm).length := by
      simp only [oneHotMask, List.length_map, List.length_range]
      omega
    have hgd : (oneHotMask u sm).getD (chooseRandom u sm).toNat 0 =
        (oneHotMask u sm)[(chooseRandom u sm).toNat] :=
      List.getD_eq_getElem _ 0 _
    rw [hgd]
    simp only [oneHotMask, List.getElem_map, List.getElem_range]
    rw [if_pos (by omega)]

/-- Witness for `oneHotLayer_one_hot` at `u = 3/4`, `sm = [1/4, 1/4, 1/2]`. -/
theorem oneHotLayer_one_hot_witness :
    ∃ idx : ℕ, idx < 3 ∧
      (idx : ℤ) = chooseRandom (3/4) [1/4, 1/4, 1/2] ∧
      oneHotApply (3/4) [1/4, 1/4, 1/2] =
        (List.range 3).map (fun j => if j = idx then 1 else 0) ∧
      (oneHotMask (3/4) [1/4, 1/4, 1/2]).getD idx 0 =
        1 / ([(1/4 : ℚ), 1/4, 1/2].getD idx 0) := by
  have h := oneHotLayer_one_hot (3/4) [1/4, 1/4, 1/2] (by decide)
    (by intro x hx; fin_cases hx <;> norm_num)
  simpa using h

/-! ## `FeedbackBlock` gradient propagation (demo/mnist_gen/main.go)

Embedding of `feedbackBlockResult.PropagateGradient`:

```go
internalUpstream := make([]linalg.Vector, len(f.Outputs()))
for i, x := range u { internalUpstream[i] = x.Copy() }
for i, stateGradObj := range s {
    if stateGradObj != nil {
        stateGrad := stateGradObj.(*feedbackBlockGrad)
        internalStateGrad[i] = stateGrad.Internal
        if internalUpstream[i] != nil {
            internalUpstream[i].Add(stateGrad.Feedback)
        } else {
            internalUpstream[i] = stateGrad.Feedback.Copy()
        }
    }
}
for i, x := range internalUpstream {
    if x == nil { internalUpstream[i] = make(linalg.Vector, len(f.Outputs()[i])) }
}
for _, v := range f.FeedbackPool { g[v] = make(linalg.Vector, len(v.Vector)) }
internalDownstream := f.Internal.PropagateGradient(internalUpstream, internalStateGrad, g)
downstream := ... { Internal: internalDownstream[i], Feedback: g[v] } ...
```

A `nil` upstream entry (no gradient supplied for that batch element) is
modelled by `none`; the feedback component of a possibly-`nil` incoming
state gradient likewise.  The wrapped block's `PropagateGradient` (the
external rnn collaborator) is abstracted as a function `inner` from the
accumulated internal upstream list to the pair of (internal downstream
state gradients, gradients the inner propagation accumulates on the pooled
feedback variables `g[v]`). -/

/-- Elementwise vector addition (`linalg.Vector.Add`). -/
def vecAdd (a b : List ℚ) : List ℚ := List.zipWith (· + ·) a b

/-- The internal upstream computed by
`feedbackBlockResult.PropagateGradient` before the wrapped block is
invoked: the copied output upstream, with the feedback component of the
incoming state gradient added in when present, and `nil` entries replaced
by zero vectors of the output length. -/
def feedbackInternalUpstream (outputs : List (List ℚ))
    (u s : List (Option (List ℚ))) : List (List ℚ) :=
  (List.range outputs.length).map (fun (i : ℕ) =>
    let base : Option (List ℚ) := u.getD i none
    let withFeedback : Option (List ℚ) :=
      match s.getD i none with
      | none => base
      | some fb =>
        match base with
        | none => some fb
        | some b => some (vecAdd b fb)
    match withFeedback with
    | none => List.replicate (outputs.getD i []).length 0
    | some v => v)

/-- `feedbackBlockResult.PropagateGradient`: apply the wrapped block's
propagation to the accumulated upstream, then pair each internal downstream
state gradient with the gradient accumulated on that element's pooled
feedback variable. -/
def feedbackPropagateGradient {σ : Type}
    (inner : List (List ℚ) → List σ × List (List ℚ))
    (outputs : List (List ℚ)) (u s : List (Option (List ℚ))) :
    List (σ × List ℚ) :=
  let res := inner (feedbackInternalUpstream outputs u s)
  List.zipWith (fun d fb => (d, fb)) res.1 res.2

theorem feedbackInternalUpstream_length (outputs : List (List ℚ))
    (u s : List (Option (List ℚ))) :
    (feedbackInternalUpstream outputs u s).length = outputs.length := by
  simp [feedbackInternalUpstream]

/-- C2: in `FeedbackBlock`'s gradient propagation, the upstream vector
handed to the wrapped inner block for batch element `i` is the sum of the
output upstream and the feedback component of the incoming state gradient
whenever both are present (the feedback component alone, the upstream
alone, or a zero vector in the degenerate cases), the accumulation
happening before the inner block's `PropagateGradient` runs; and the
returned downstream state gradient of element `i` carries the inner
downstream gradient together with the gradient accumulated on element
`i`'s pooled feedback variable. -/
theorem feedbackBlock_gradient_accumulation {σ : Type} [Inhabited σ]
    (inner : List (List ℚ) → List σ × List (List ℚ))
    (outputs : List (List ℚ)) (u s : List (Option (List ℚ)))
    (hinner : ∀ l, ((inner l).1.length = l.length ∧ (inner l).2.length = l.length)) :
    (∀ i, i < outputs.length →
      (feedbackInternalUpstream outputs u s).getD i [] =
        match u.getD i none, s.getD i none with
        | some uv, some fb => vecAdd uv fb
        | some uv, none => uv
        | none, some fb => fb
        | none, none => List.replicate (outputs.getD i []).length 0) ∧
    (∀ i, i < outputs.length →
      (feedbackPropagateGradient inner outputs u s).getD i (default, []) =
        ((inner (feedbackInternalUpstream outputs u s)).1.getD i default,
         (inner (feedbackInternalUpstream outputs u s)).2.getD i [])) := by
  constructor
  · intro i hi
    have hi2 : i < (feedbackInternalUpstream outputs u s).length := by
      rw [feedbackInternalUpstream_length]
      exact hi
    have hgd : (feedbackInternalUpstream outputs u s).getD i [] =
        (feedbackInternalUpstream outputs u s)[i] :=
      List.getD_eq_getElem _ [] _
    rw [hgd]
    simp only [feedbackInternalUpstream, List.getElem_map, List.getElem_range]
    cases hs : s.getD i none with
    | none =>
      cases hu : u.getD i none with
      | none => rfl
      | some uv => rfl
    | some fb =>
      cases hu : u.getD i none with
      | none => rfl
      | some uv => rfl
  · intro i hi
    have hup := feedbackInternalUpstream_length outputs u s
    obtain ⟨h1, h2⟩ := hinner (feedbackInternalUpstream outputs u s)
    have hzl : (feedbackPropagateGradient inner outputs u s).length =
        outputs.length := by
      simp [feedbackPropagateGradient, h1, h2, hup]
    have hi1 : i < (inner (feedbackInternalUpstream outputs u s)).1.length := by
      omega
    have hi2 : i < (inner (feedbackInternalUpstream outputs u s)).2.length := by
      omega
    have hi3 : i < (feedbackPropagateGradient inner outputs u s).length := by
      omega
    have hgd : (feedbackPropagateGradient inner outputs u s).getD i (default, []) =
        (feedbackPropagateGradient inner outputs u s)[i] :=
      List.getD_eq_getElem _ _ _
    rw [hgd]
    simp only [feedbackPropagateGradient, List.getElem_zipWith]
    rw [List.getD_eq_getElem _ _ hi1, List.getD_eq_getElem _ _ hi2]

/-- Witness for `feedbackBlock_gradient_accumulation`: one batch element,
upstream `[1, 2]`, incoming feedback gradient `[3, 4]`, and an inner
propagation that returns its upstream as downstream and accumulates
`[5, 6]` on the pooled feedback variable: the inner block receives the
accumulated sum `[4, 6]` and the downstream carries the pool gradient. -/
theorem feedbackBlock_gradient_accumulation_witness :
    (feedbackInternalUpstream [[(0 : ℚ), 0]] [some [1, 2]] [some [3, 4]]).getD 0 [] =
      [4, 6] ∧
    (feedbackPropagateGradient (fun l => (l, l.map (fun _ => [(5 : ℚ), 6])))
        [[(0 : ℚ), 0]] [some [1, 2]] [some [3, 4]]).getD 0 (([] : List ℚ), []) =
      ([4, 6], [5, 6]) := by
  have h := feedbackBlock_gradient_accumulation (σ := List ℚ)
    (fun l => (l, l.map (fun _ => [(5 : ℚ), 6])))
    [[(0 : ℚ), 0]] [some [1, 2]] [some [3, 4]]
    (fun l => ⟨rfl, by simp⟩)
  have hup : (feedbackInternalUpstream [[(0 : ℚ), 0]]
      [some [1, 2]] [some [3, 4]]).getD 0 [] = [4, 6] := by
    have h1 := h.1 0 (by norm_num)
    rw [h1]
    show vecAdd [1, 2] [3, 4] = [4, 6]
    simp [vecAdd]
    norm_num
  refine ⟨hup, ?_⟩
  have hupfull : feedbackInternalUpstream [[(0 : ℚ), 0]]
      [some [1, 2]] [some [3, 4]] = [[4, 6]] := by
    have hlen := feedbackInternalUpstream_length [[(0 : ℚ), 0]]
      [some [1, 2]] [some [3, 4]]
    cases hcase : feedbackInternalUpstream [[(0 : ℚ), 0]]
        [some [1, 2]] [some [3, 4]] with
    | nil => rw [hcase] at hlen; simp at hlen
    | cons a l =>
      rw [hcase] at hlen hup
      simp at hlen
      subst hlen
      simp at hup
      rw [hup]
  have h2 := h.2 0 (by norm_num)
  show (feedbackPropagateGradient (fun l => (l, l.map (fun _ => [(5 : ℚ), 6])))
      [[(0 : ℚ), 0]] [some [1, 2]] [some [3, 4]]).getD 0
      ((default : List ℚ), []) = ([4, 6], [5, 6])
  rw [h2, hupfull]
  simp

/-! ## Policy-gradient `Recurrent` serialization (recurrent.go)

```go
func (r *Recurrent) Serialize() ([]byte, error) {
    return serializer.SerializeAny(r.Discriminator, r.Generator,
        serializer.Int(r.RandomSize),
        serializer.Float64(r.DiscountFactor))
}

func DeserializeRecurrent(d []byte) (*Recurrent, error) {
    res := &Recurrent{}
    var randomSize serializer.Int
    var discount serializer.Float64
    err := serializer.DeserializeAny(d, &res.Discriminator, &res.Generator,
        &randomSize, &discount)
    ...
}
```

The external serializer collaborator round-trips exactly the values handed
to `SerializeAny`, in order; the byte blob is therefore modelled as the
tuple of those four values.  `res := &Recurrent{}` starts from the Go zero
value, so every field not filled in by `DeserializeAny` keeps its zero
value.  The discriminator, generator and the two optional per-phase
transformers are opaque collaborator values, modelled by type parameters. -/

/-- The policy-gradient `Recurrent` trainer struct.  `D`, `G` stand for the
`seqfunc.RFunc` discriminator/generator, `F` for the `sgd.Transformer`
type; a Go `nil` transformer is `none`. -/
structure RecurrentPG (D G F : Type) where
  genIterations : ℤ
  discIterations : ℤ
  genTrans : Option F
  discTrans : Option F
  discriminator : D
  generator : G
  randomSize : ℤ
  discountFactor : ℚ
  iterIdx : ℤ

/-- `Recurrent.Serialize`: the data handed to `serializer.SerializeAny`. -/
def serializeRecurrentPG {D G F : Type} (r : RecurrentPG D G F) : D × G × ℤ × ℚ :=
  (r.discriminator, r.generator, r.randomSize, r.discountFactor)

/-- `DeserializeRecurrent` (policy-gradient variant): a fresh zero-valued
struct whose discriminator, generator, `RandomSize` and `DiscountFactor`
are filled from the blob. -/
def deserializeRecurrentPG {D G F : Type} (b : D × G × ℤ × ℚ) : RecurrentPG D G F where
  genIterations := 0
  discIterations := 0
  genTrans := none
  discTrans := none
  discriminator := b.1
  generator := b.2.1
  randomSize := b.2.2.1
  discountFactor := b.2.2.2
  iterIdx := 0

/-- A concrete policy-gradient trainer with nonzero iteration counts, used
to exhibit the lossy round trip. -/
def recurrentRoundTripEx : RecurrentPG Unit Unit Unit where
  genIterations := 7
  discIterations := 3
  genTrans := none
  discTrans := none
  discriminator := ()
  generator := ()
  randomSize := 5
  discountFactor := 1/2
  iterIdx := 0

/-- C6 counterexample: deserializing the serialization of a trainer with
`GenIterations = 7` and `DiscIterations = 3` yields `GenIterations = 0` and
`DiscIterations = 0` — these configuration scalars are not persisted by
`Recurrent.Serialize`, so the round trip does not restore them. -/
theorem recurrent_roundtrip_counterexample :
    (deserializeRecurrentPG (F := Unit)
        (serializeRecurrentPG recurrentRoundTripEx)).genIterations ≠
      recurrentRoundTripEx.genIterations ∧
    (deserializeRecurrentPG (F := Unit)
        (serializeRecurrentPG recurrentRoundTripEx)).discIterations ≠
      recurrentRoundTripEx.discIterations := by
  constructor <;> decide

/-- C6 (amended): the serialize/deserialize round trip of the
policy-gradient `Recurrent` restores the discriminator, the generator,
`RandomSize` and `DiscountFactor`, but resets `GenIterations`,
`DiscIterations`, both transformers and the alternation counter to their
zero values — `GenIterations` and `DiscIterations` are NOT serialized. -/
theorem recurrent_roundtrip (D G F : Type) (r : RecurrentPG D G F) :
    (deserializeRecurrentPG (F := F) (serializeRecurrentPG r)).discriminator =
        r.discriminator ∧
    (deserializeRecurrentPG (F := F) (serializeRecurrentPG r)).generator = r.generator ∧
    (deserializeRecurrentPG (F := F) (serializeRecurrentPG r)).randomSize = r.randomSize ∧
    (deserializeRecurrentPG (F := F) (serializeRecurrentPG r)).discountFactor =
        r.discountFactor ∧
    (deserializeRecurrentPG (F := F) (serializeRecurrentPG r)).genIterations = 0 ∧
    (deserializeRecurrentPG (F := F) (serializeRecurrentPG r)).discIterations = 0 ∧
    (deserializeRecurrentPG (F := F) (serializeRecurrentPG r)).genTrans = none ∧
    (deserializeRecurrentPG (F := F) (serializeRecurrentPG r)).discTrans = none ∧
    (deserializeRecurrentPG (F := F) (serializeRecurrentPG r)).iterIdx = 0 :=
  ⟨rfl, rfl, rfl, rfl, rfl, rfl, rfl, rfl, rfl⟩

/-! ## Gradient maps

`autofunc.Gradient` is a Go map from parameter variables to accumulator
vectors.  A parameter is modelled by a stable identifier plus its length;
the map by an association list in which an earlier binding shadows a later
one (so prepending a binding models a map write). -/

/-- A trainable parameter: identity and vector length. -/
structure ParamV where
  id : ℕ
  size : ℕ

/-- Association-list model of `autofunc.Gradient`. -/
abbrev GradMap : Type := List (ℕ × List ℚ)

/-- `autofunc.NewGradient`: every listed parameter maps to a zero vector of
its own length. -/
def newGradient (ps : List ParamV) : GradMap :=
  ps.map (fun p => (p.id, List.replicate p.size 0))

/-- Map lookup. -/
def lookupGrad : GradMap → ℕ → Option (List ℚ)
  | [], _ => none
  | (k, v) :: rest, i => if k = i then some v else lookupGrad rest i

/-- The merge loop at the end of the `Gradient` methods:

```go
res := autofunc.Gradient{}
for _, g := range []autofunc.Gradient{first, second} { for k, v := range g { res[k] = v } }
```

Writes from `second` land after (and therefore shadow) writes from
`first`. -/
def mergeGrads (first second : GradMap) : GradMap :=
  second ++ first

theorem lookupGrad_append (a b : GradMap) (i : ℕ) :
    lookupGrad (a ++ b) i =
      ((lookupGrad a i).rec (lookupGrad b i) (fun v => some v) : Option (List ℚ)) := by
  induction a with
  | nil => simp [lookupGrad]
  | cons kv rest ih =>
    by_cases h : kv.1 = i
    · simp [lookupGrad, h]
    · simp [lookupGrad, h, ih]

theorem lookupGrad_eq_none_iff (g : GradMap) (i : ℕ) :
    lookupGrad g i = none ↔ i ∉ g.map Prod.fst := by
  induction g with
  | nil => simp [lookupGrad]
  | cons kv rest ih =>
    obtain ⟨k, v⟩ := kv
    by_cases h : k = i
    · subst h
      simp [lookupGrad]
    · have hstep : lookupGrad ((k, v) :: rest) i = lookupGrad rest i := by
        simp [lookupGrad, h]
      rw [hstep, ih]
      simp only [List.map_cons, List.mem_cons]
      constructor
      · intro hn hmem
        rcases hmem with he | hm
        · exact h he.symm
        · exact hn hm
      · intro hn hm
        exact hn (Or.inr hm)

theorem lookupGrad_newGradient {ps : List ParamV} {p : ParamV}
    (hmem : p ∈ ps) (hnodup : (ps.map ParamV.id).Nodup) :
    lookupGrad (newGradient ps) p.id = some (List.replicate p.size 0) := by
  induction ps with
  | nil => simp at hmem
  | cons q rest ih =>
    simp only [List.map_cons, List.nodup_cons] at hnodup
    rcases List.mem_cons.1 hmem with h | h
    · subst h
      simp [newGradient, lookupGrad]
    · have hne : q.id ≠ p.id := by
        intro he
        exact hnodup.1 (he ▸ List.mem_map_of_mem ParamV.id h)
      simpa [newGradient, lookupGrad, hne] using ih h hnodup.2

/-! ## C7: frozen-side parameters in the policy-gradient `Recurrent.Gradient`

```go
genGrad := autofunc.NewGradient(r.Generator.(sgd.Learner).Parameters())
discGrad := autofunc.NewGradient(r.Discriminator.(sgd.Learner).Parameters())
subIdx := r.iterIdx % (r.GenIterations + r.DiscIterations)
r.iterIdx++
if subIdx < r.DiscIterations {
    r.DiscCost(s).PropagateGradient([]float64{1}, discGrad)
    if r.DiscTrans != nil { discGrad = r.DiscTrans.Transform(discGrad) }
} else {
    ... genOut.PropagateGradient(upstream, genGrad)
    if r.GenTrans != nil { genGrad = r.GenTrans.Transform(genGrad) }
}
res := autofunc.Gradient{}
for _, g := range []autofunc.Gradient{genGrad, discGrad} { for k, v := range g { res[k] = v } }
```

The cost construction and back-propagation (and the optional transform) of
each phase are collaborator calls that only touch the accumulators already
present in the gradient map they are given; the whole phase body is
abstracted as a function `discProp` (resp. `genProp`) on gradient maps. -/

/-- `Recurrent.Gradient` at the gradient-map level: build zero gradients
for both parameter sets, run one phase's propagation on its own map
according to the alternation counter, and merge (discriminator entries
written after generator entries). -/
def recurrentGradient (genParams discParams : List ParamV)
    (discProp genProp : GradMap → GradMap)
    (genIterations discIterations iterIdx : ℕ) : GradMap :=
  let genGrad := newGradient genParams
  let discGrad := newGradient discParams
  if trainsDisc genIterations discIterations iterIdx then
    mergeGrads genGrad (discProp discGrad)
  else
    mergeGrads (genProp genGrad) discGrad

theorem newGradient_keys (ps : List ParamV) :
    (newGradient ps).map Prod.fst = ps.map ParamV.id := by
  simp [newGradient]

/-- C7: on a discriminator-phase call of the policy-gradient
`Recurrent.Gradient` every generator-parameter entry of the returned merged
gradient map is the zero vector of that parameter's length, and on a
generator-phase call every discriminator-parameter entry is the zero
vector: the frozen side's parameters receive no gradient.  Hypotheses: the
two parameter sets are disjoint and duplicate-free (each `autofunc`
parameter is a distinct variable), and the discriminator-phase propagation
only writes to accumulators already present in the map it is handed. -/
theorem recurrent_frozen_parameters (genParams discParams : List ParamV)
    (discProp genProp : GradMap → GradMap) (g k idx : ℕ)
    (hdisj : ∀ p ∈ genParams, ∀ q ∈ discParams, p.id ≠ q.id)
    (hkeys : ∀ m : GradMap, (discProp m).map Prod.fst = m.map Prod.fst)
    (hnodupG : (genParams.map ParamV.id).Nodup)
    (hnodupD : (discParams.map ParamV.id).Nodup) :
    (trainsDisc g k idx = true →
      ∀ p ∈ genParams,
        lookupGrad
          (recurrentGradient genParams discParams discProp genProp g k idx)
          p.id = some (List.replicate p.size 0)) ∧
    (trainsDisc g k idx = false →
      ∀ p ∈ discParams,
        lookupGrad
          (recurrentGradient genParams discParams discProp genProp g k idx)
          p.id = some (List.replicate p.size 0)) := by
  constructor
  · intro htrain p hp
    have hres : recurrentGradient genParams discParams discProp genProp g k idx =
        discProp (newGradient discParams) ++ newGradient genParams := by
      simp [recurrentGradient, htrain, mergeGrads]
    rw [hres]
    have hnone : lookupGrad (discProp (newGradient discParams)) p.id = none := by
      rw [lookupGrad_eq_none_iff, hkeys, newGradient_keys]
      intro hmem
      obtain ⟨q, hq, hqid⟩ := List.mem_map.1 hmem
      exact hdisj p hp q hq hqid.symm
    rw [lookupGrad_append, hnone]
    exact lookupGrad_newGradient hp hnodupG
  · intro htrain p hp
    have hres : recurrentGradient genParams discParams discProp genProp g k idx =
        newGradient discParams ++ genProp (newGradient genParams) := by
      simp [recurrentGradient, htrain, mergeGrads]
    rw [hres, lookupGrad_append, lookupGrad_newGradient hp hnodupD]

/-- Witness for `recurrent_frozen_parameters`: generator parameter `0` of
length 2, discriminator parameter `1` of length 3, a discriminator-phase
propagation adding `1` everywhere, at a discriminator-phase call
(`idx = 0`) and a generator-phase call (`idx = 1`) of a 1:1 schedule. -/
theorem recurrent_frozen_parameters_witness :
    lookupGrad (recurrentGradient [⟨0, 2⟩] [⟨1, 3⟩]
        (fun m => m.map (fun kv => (kv.1, kv.2.map (fun x => x + 1)))) id 1 1 0) 0 =
      some [0, 0] ∧
    lookupGrad (recurrentGradient [⟨0, 2⟩] [⟨1, 3⟩]
        (fun m => m.map (fun kv => (kv.1, kv.2.map (fun x => x + 1)))) id 1 1 1) 1 =
      some [0, 0, 0] := by
  have hdisj : ∀ p ∈ [(⟨0, 2⟩ : ParamV)], ∀ q ∈ [(⟨1, 3⟩ : ParamV)], p.id ≠ q.id := by
    intro p hp q hq
    simp only [List.mem_singleton] at hp hq
    subst hp
    subst hq
    decide
  have hkeys : ∀ m : GradMap,
      (m.map (fun kv => (kv.1, kv.2.map (fun x => x + 1)))).map Prod.fst =
        m.map Prod.fst := by
    intro m
    induction m with
    | nil => rfl
    | cons a t ih => simp [ih]
  constructor
  · have h := recurrent_frozen_parameters [⟨0, 2⟩] [⟨1, 3⟩]
      (fun m => m.map (fun kv => (kv.1, kv.2.map (fun x => x + 1)))) id 1 1 0
      hdisj hkeys (by simp) (by simp)
    exact h.1 (by decide) ⟨0, 2⟩ (List.mem_singleton.2 rfl)
  · have h := recurrent_frozen_parameters [⟨0, 2⟩] [⟨1, 3⟩]
      (fun m => m.map (fun kv => (kv.1, kv.2.map (fun x => x + 1)))) id 1 1 1
      hdisj hkeys (by simp) (by simp)
    exact h.2 (by decide) ⟨1, 3⟩ (List.mem_singleton.2 rfl)

/-! ## C8: feature-matching gradient scales (feature_matching.go and the
`FM` variant)

```go
genGrad := autofunc.NewGradient(f.Generator.Parameters())
genCost.PropagateGradient(linalg.Vector{1}, genGrad)
...
discrimGrad := autofunc.NewGradient(f.Discriminator.Parameters())
realDiscrimCost.PropagateGradient(linalg.Vector{0.1}, discrimGrad)
genDiscrimCost.PropagateGradient(linalg.Vector{0.1}, discrimGrad)
resGrad := autofunc.Gradient{}
for _, subGrad := range []autofunc.Gradient{genGrad, discrimGrad} { ... }
```

Both `FeatureMatching.Gradient` and `FM.Gradient` contain this identical
propagation block.  A scalar cost's `PropagateGradient(upstream, grad)`
(external autodiff collaborator) adds `upstream[0]` times the cost's unit
gradient with respect to each parameter into that parameter's accumulator
— backpropagation is linear in the upstream vector. -/

/-- Scalar times vector (`linalg.Vector.Scale`). -/
def scaleVec (c : ℚ) (v : List ℚ) : List ℚ := v.map (fun x => c * x)

/-- `cost.PropagateGradient([upstreamScale], g)`: for every accumulator in
`g`, add `upstreamScale` times the cost's unit gradient for that
parameter.  `unitGrad` is the cost's gradient at upstream scale `1`, a
property of the (external) cost expression. -/
def propagateCost (upstreamScale : ℚ) (unitGrad : ℕ → List ℚ)
    (g : GradMap) : GradMap :=
  g.map (fun kv => (kv.1, vecAdd kv.2 (scaleVec upstreamScale (unitGrad kv.1))))

/-- The shared gradient computation of `FeatureMatching.Gradient` and
`FM.Gradient`: mean-squared feature cost into the generator gradient at
upstream scale `1`; real-sample and generated-sample sigmoid cross-entropy
costs into the discriminator gradient, each at upstream scale `0.1`; then
merge (discriminator entries written after generator entries). -/
def fmGradient (genParams discParams : List ParamV)
    (genCostUnit realDiscUnit genDiscUnit : ℕ → List ℚ) : GradMap :=
  let genGrad := propagateCost 1 genCostUnit (newGradient genParams)
  let discGrad := propagateCost (1/10) genDiscUnit
    (propagateCost (1/10) realDiscUnit (newGradient discParams))
  mergeGrads genGrad discGrad

theorem lookupGrad_propagateCost (c : ℚ) (u : ℕ → List ℚ) (g : GradMap) (i : ℕ) :
    lookupGrad (propagateCost c u g) i =
      (lookupGrad g i).map (fun v => vecAdd v (scaleVec c (u i))) := by
  induction g with
  | nil => simp [propagateCost, lookupGrad]
  | cons kv rest ih =>
    obtain ⟨k, v⟩ := kv
    by_cases h : k = i
    · subst h
      simp [propagateCost, lookupGrad]
    · have hstep : lookupGrad (propagateCost c u ((k, v) :: rest)) i =
          lookupGrad (propagateCost c u rest) i := by
        simp [propagateCost, lookupGrad, h]
      have hlk : lookupGrad ((k, v) :: rest) i = lookupGrad rest i := by
        simp [lookupGrad, h]
      rw [hstep, ih, hlk]

theorem propagateCost_keys (c : ℚ) (u : ℕ → List ℚ) (g : GradMap) :
    (propagateCost c u g).map Prod.fst = g.map Prod.fst := by
  simp [propagateCost]

theorem vecAdd_replicate_zero (v : List ℚ) (n : ℕ) (h : v.length = n) :
    vecAdd (List.replicate n 0) v = v := by
  induction v generalizing n with
  | nil => subst h; rfl
  | cons x rest ih =>
    subst h
    simp only [List.length_cons, List.replicate_succ, vecAdd,
      List.zipWith_cons_cons, zero_add]
    exact congrArg _ (ih _ rfl)

theorem scaleVec_one (v : List ℚ) : scaleVec 1 v = v := by
  simp [scaleVec]

theorem scaleVec_vecAdd (c : ℚ) (a b : List ℚ) :
    vecAdd (scaleVec c a) (scaleVec c b) = scaleVec c (vecAdd a b) := by
  induction a generalizing b with
  | nil => simp [vecAdd, scaleVec]
  | cons x rest ih =>
    cases b with
    | nil => simp [vecAdd, scaleVec]
    | cons y brest =>
      simp only [scaleVec, vecAdd, List.map_cons, List.zipWith_cons_cons]
      refine congrArg₂ _ (by ring) ?_
      simpa [scaleVec, vecAdd] using ih brest

/-- C8: in the feature-matching trainers, every discriminator-parameter
entry of the returned merged gradient is exactly `0.1` times the sum of the
unit gradients of the real-sample and generated-sample sigmoid
cross-entropy costs, and every generator-parameter entry is exactly `1`
times the unit gradient of the mean-squared feature-matching cost. -/
theorem fm_gradient_scales (genParams discParams : List ParamV)
    (genCostUnit realDiscUnit genDiscUnit : ℕ → List ℚ)
    (hdisj : ∀ p ∈ genParams, ∀ q ∈ discParams, p.id ≠ q.id)
    (hnodupG : (genParams.map ParamV.id).Nodup)
    (hnodupD : (discParams.map ParamV.id).Nodup)
    (hlenG : ∀ p ∈ genParams, (genCostUnit p.id).length = p.size)
    (hlenR : ∀ p ∈ discParams, (realDiscUnit p.id).length = p.size) :
    (∀ p ∈ discParams,
      lookupGrad
          (fmGradient genParams discParams genCostUnit realDiscUnit genDiscUnit)
          p.id =
        some (vecAdd (scaleVec (1/10) (realDiscUnit p.id))
          (scaleVec (1/10) (genDiscUnit p.id)))) ∧
    (∀ p ∈ genParams,
      lookupGrad
          (fmGradient genParams discParams genCostUnit realDiscUnit genDiscUnit)
          p.id =
        some (genCostUnit p.id)) := by
  constructor
  · intro p hp
    have hres : fmGradient genParams discParams genCostUnit realDiscUnit genDiscUnit =
        propagateCost (1/10) genDiscUnit
            (propagateCost (1/10) realDiscUnit (newGradient discParams)) ++
          propagateCost 1 genCostUnit (newGradient genParams) := by
      simp [fmGradient, mergeGrads]
    rw [hres, lookupGrad_append]
    have hlook : lookupGrad (propagateCost (1/10) genDiscUnit
        (propagateCost (1/10) realDiscUnit (newGradient discParams))) p.id =
        some (vecAdd (scaleVec (1/10) (realDiscUnit p.id))
          (scaleVec (1/10) (genDiscUnit p.id))) := by
      rw [lookupGrad_propagateCost, lookupGrad_propagateCost,
        lookupGrad_newGradient hp hnodupD]
      simp only [Option.map_some']
      rw [vecAdd_replicate_zero _ _ (by simp [scaleVec, hlenR p hp])]
    rw [hlook]
  · intro p hp
    have hres : fmGradient genParams discParams genCostUnit realDiscUnit genDiscUnit =
        propagateCost (1/10) genDiscUnit
            (propagateCost (1/10) realDiscUnit (newGradient discParams)) ++
          propagateCost 1 genCostUnit (newGradient genParams) := by
      simp [fmGradient, mergeGrads]
    rw [hres, lookupGrad_append]
    have hnone : lookupGrad (propagateCost (1/10) genDiscUnit
        (propagateCost (1/10) realDiscUnit (newGradient discParams))) p.id = none := by
      rw [lookupGrad_eq_none_iff, propagateCost_keys, propagateCost_keys,
        newGradient_keys]
      intro hmem
      obtain ⟨q, hq, hqid⟩ := List.mem_map.1 hmem
      exact hdisj p hp q hq hqid.symm
    rw [hnone]
    have hlook : lookupGrad (propagateCost 1 genCostUnit (newGradient genParams))
        p.id = some (genCostUnit p.id) := by
      rw [lookupGrad_propagateCost, lookupGrad_newGradient hp hnodupG]
      simp only [Option.map_some', scaleVec_one]
      rw [vecAdd_replicate_zero _ _ (hlenG p hp)]
    rw [hlook]

/-- Witness for `fm_gradient_scales`: one generator parameter (id 0,
length 1, unit gradient `[2]`) and one discriminator parameter (id 1,
length 1, real/generated unit gradients `[4]` and `[6]`). -/
theorem fm_gradient_scales_witness :
    lookupGrad (fmGradient [⟨0, 1⟩] [⟨1, 1⟩]
        (fun _ => [2]) (fun _ => [4]) (fun _ => [6])) 1 =
      some [1] ∧
    lookupGrad (fmGradient [⟨0, 1⟩] [⟨1, 1⟩]
        (fun _ => [2]) (fun _ => [4]) (fun _ => [6])) 0 =
      some [2] := by
  have h := fm_gradient_scales [⟨0, 1⟩] [⟨1, 1⟩]
    (fun _ => [2]) (fun _ => [4]) (fun _ => [6])
    (by
      intro p hp q hq
      simp only [List.mem_singleton] at hp hq
      subst hp
      subst hq
      decide)
    (by simp) (by simp)
    (by intro p hp; simp only [List.mem_singleton] at hp; subst hp; rfl)
    (by intro p hp; simp only [List.mem_singleton] at hp; subst hp; rfl)
  constructor
  · have h1 := h.1 ⟨1, 1⟩ (List.mem_singleton.2 rfl)
    rw [h1]
    show some (vecAdd (scaleVec (1/10) [4]) (scaleVec (1/10) [6])) = some [1]
    simp [vecAdd, scaleVec]
    norm_num
  · exact h.2 ⟨0, 1⟩ (List.mem_singleton.2 rfl)

/-! ## C9: `DeserializeRecurrent` of the length-terminating variant
(recurrent.go, first variant)

```go
func DeserializeRecurrent(d []byte) (*Recurrent, error) {
    slice, err := serializer.DeserializeSlice(d)
    if err != nil { return nil, err }
    if len(slice) != 4 && len(slice) != 5 {
        return nil, errors.New("invalid Recurrent slice")
    }
    discrim, ok1 := slice[0].(rnn.SeqFunc)
    gen, ok2 := slice[1].(rnn.Block)
    size, ok3 := slice[2].(serializer.Int)
    maxLen, ok4 := slice[3].(serializer.Int)
    if !ok1 || !ok2 || !ok3 || !ok4 {
        return nil, errors.New("invalid Recurrent slice")
    }
    res := &Recurrent{...}
    if len(slice) == 5 {
        res.GenActivation, ok1 = slice[4].(autofunc.Func)
        if !ok1 { return nil, errors.New("invalid Recurrent slice") }
    }
    return res, nil
}
```

`serializer.DeserializeSlice` (external collaborator) either fails or
yields a list of typed components; its result is modelled as an
`Option (List SerItem)` where the dynamic type of each component is a tag
of the sum type `SerItem` (identities of the opaque component values are
natural-number labels).  An error return of `DeserializeRecurrent` is
`none`. -/

/-- The dynamic type of one deserialized slice component: an
`rnn.SeqFunc`, an `rnn.Block`, a `serializer.Int`, an `autofunc.Func`, or
any other serializable type. -/
inductive SerItem : Type
  | seqFunc (id : ℕ)
  | block (id : ℕ)
  | int (n : ℤ)
  | func (id : ℕ)
  | other (id : ℕ)
deriving DecidableEq

/-- The length-terminating `Recurrent` as reconstructed by
`DeserializeRecurrent`: discriminator, generator, `RandomSize`, `MaxLen`
and the optional `GenActivation` (absent for a length-4 slice). -/
structure RecurrentLT where
  discriminator : ℕ
  generator : ℕ
  randomSize : ℤ
  maxLen : ℤ
  genActivation : Option ℕ
deriving DecidableEq

/-- `DeserializeRecurrent` (length-terminating variant): propagate a slice
decoding failure; accept exactly a slice of length 4 whose components are
(SeqFunc, Block, Int, Int), or of length 5 whose fifth component is a
Func; reject everything else. -/
def deserializeRecurrentLT : Option (List SerItem) → Option RecurrentLT
  | none => none
  | some [SerItem.seqFunc d, SerItem.block g, SerItem.int sz, SerItem.int ml] =>
    some ⟨d, g, sz, ml, none⟩
  | some [SerItem.seqFunc d, SerItem.block g, SerItem.int sz, SerItem.int ml,
      SerItem.func f] =>
    some ⟨d, g, sz, ml, some f⟩
  | some _ => none

/-- C9: the length-terminating `DeserializeRecurrent` returns an instance
exactly when the input decodes to a serializer slice of length 4 of the
form (SeqFunc, Block, Int, Int), or of length 5 with additionally a Func;
any other input — a failed slice decode, a wrong length, or a component of
the wrong dynamic type — yields an error and no instance.  On success the
instance's fields are the decoded components, with `GenActivation` filled
only from a length-5 slice. -/
theorem deserializeRecurrentLT_shape (s : Option (List SerItem)) :
    ((deserializeRecurrentLT s).isSome ↔
      (∃ d g sz ml,
        s = some [SerItem.seqFunc d, SerItem.block g, SerItem.int sz,
          SerItem.int ml] ∨
        ∃ f, s = some [SerItem.seqFunc d, SerItem.block g, SerItem.int sz,
          SerItem.int ml, SerItem.func f])) ∧
    (∀ d g sz ml,
      deserializeRecurrentLT (some [SerItem.seqFunc d, SerItem.block g,
        SerItem.int sz, SerItem.int ml]) = some ⟨d, g, sz, ml, none⟩) ∧
    (∀ d g sz ml f,
      deserializeRecurrentLT (some [SerItem.seqFunc d, SerItem.block g,
        SerItem.int sz, SerItem.int ml, SerItem.func f]) =
        some ⟨d, g, sz, ml, some f⟩) := by
  refine ⟨⟨?_, ?_⟩, fun d g sz ml => rfl, fun d g sz ml f => rfl⟩
  · intro hsome
    unfold deserializeRecurrentLT at hsome
    split at hsome
    · simp at hsome
    · rename_i d g sz ml
      exact ⟨d, g, sz, ml, Or.inl rfl⟩
    · rename_i d g sz ml f
      exact ⟨d, g, sz, ml, Or.inr ⟨f, rfl⟩⟩
    · simp at hsome
  · rintro ⟨d, g, sz, ml, h | ⟨f, h⟩⟩ <;> subst h <;> rfl

/-! ## C5: `ExpBlock` (demo/text_gen/exp_block.go)

```go
func NewExpBlock(inSize, stateSize int) rnn.Block {
    bf := &expBlockFunc{ StateTrans: &neuralnet.DenseLayer{...}, ... }
    bf.StateTrans.Weights.Data.Vector.Scale(0)
    bf.StateTrans.Biases.Var.Vector.Scale(0)
    for i := 0; i < stateSize; i++ {
        bf.StateTrans.Weights.Data.Vector[i+stateSize*i] = expBlockIdentityScale // 0.8
    }
    ...
}

func (e *expBlockFunc) Apply(in autofunc.Result) autofunc.Result {
    ...
    newState := e.StateTrans.Apply(autofunc.Slice(in, inSize, inSize+stateSize))
    ...
    for i := 0; i < inSize; i++ {
        prob := autofunc.Slice(in, i, i+1)
        totalState := autofunc.Add(newState, e.InputWeights[i])
        activated := activation.Apply(totalState)   // HyperbolicTangent
        masked := autofunc.ScaleFirst(activated, prob)
        expOut = add up masked
    }
    ...
}
```

`NewExpBlock` wraps `expBlockFunc` in `rnn.StateOutBlock`, so the block's
per-timestep output IS its state and the state update is
`expBlockFunc.Apply`.  Real numbers model the float vectors because of the
hyperbolic tangent. -/

noncomputable section

/-- Dot product. -/
def dotProduct (r x : List ℝ) : ℝ := (List.zipWith (· * ·) r x).sum

/-- `neuralnet.DenseLayer` (external layer collaborator) application:
each output is the corresponding weight row dotted with the input, plus
that output's bias. -/
def denseApply (weights : List (List ℝ)) (biases x : List ℝ) : List ℝ :=
  List.zipWith (fun row b => dotProduct row x + b) weights biases

/-- The state-transition weight matrix as initialized by `NewExpBlock`:
`0.8` on the diagonal (`Vector[i+stateSize*i] = expBlockIdentityScale`),
zero elsewhere. -/
def expIdentityWeights (stateSize : ℕ) : List (List ℝ) :=
  (List.range stateSize).map (fun (i : ℕ) =>
    (List.range stateSize).map (fun (j : ℕ) => if j = i then (0.8 : ℝ) else 0))

/-- `expBlockFunc.Apply`: apply the state transition to the previous state,
then form the probability-weighted mixture over the per-symbol candidates
`tanh(newState + inputWeights[i])`, accumulated with `autofunc.Add`. -/
def expBlockApply (stateWeights : List (List ℝ)) (stateBiases : List ℝ)
    (inputWeights : List (List ℝ)) (probs state : List ℝ) : List ℝ :=
  match List.zipWith
      (fun (p : ℝ) (wi : List ℝ) =>
        (List.zipWith (· + ·) (denseApply stateWeights stateBiases state)
          wi).map (fun z => p * Real.tanh z))
      probs inputWeights with
  | [] => []
  | c :: cs => cs.foldl (fun acc w => List.zipWith (· + ·) acc w) c

/-- `n` timesteps of the block under a constant input vector `probs`
(`rnn.StateOutBlock`: output = state). -/
def expBlockIterate (stateWeights : List (List ℝ)) (stateBiases : List ℝ)
    (inputWeights : List (List ℝ)) (probs : List ℝ) : ℕ → List ℝ → List ℝ
  | 0, s => s
  | n + 1, s =>
    expBlockIterate stateWeights stateBiases inputWeights probs n
      (expBlockApply stateWeights stateBiases inputWeights probs s)

end

theorem dotProduct_map_zero (l : List ℕ) (x : List ℝ) :
    dotProduct (l.map (fun _ => (0 : ℝ))) x = 0 := by
  induction l generalizing x with
  | nil => simp [dotProduct]
  | cons a rest ih =>
    cases x with
    | nil => simp [dotProduct]
    | cons b xs =>
      simp only [List.map_cons, dotProduct, List.zipWith_cons_cons, List.sum_cons,
        zero_mul, zero_add]
      exact ih xs

theorem dotProduct_indicator (x : List ℝ) (i : ℕ) (hi : i < x.length) (c : ℝ) :
    dotProduct ((List.range x.length).map (fun j => if j = i then c else 0)) x =
      c * x.getD i 0 := by
  induction x generalizing i with
  | nil => simp at hi
  | cons a rest ih =>
    rw [List.length_cons, List.range_succ_eq_map, List.map_cons, List.map_map]
    cases i with
    | zero =>
      simp only [if_pos rfl, List.getD_cons_zero]
      have htail : (List.range rest.length).map
          ((fun j => if j = 0 then c else 0) ∘ (fun j => j + 1)) =
          (List.range rest.length).map (fun _ => (0 : ℝ)) := by
        apply List.map_congr_left
        intro j _
        simp
      rw [htail]
      simp only [dotProduct, List.zipWith_cons_cons, List.sum_cons]
      rw [show (List.zipWith (· * ·) ((List.range rest.length).map
        (fun _ => (0 : ℝ))) rest).sum = dotProduct ((List.range rest.length).map
        (fun _ => (0 : ℝ))) rest from rfl, dotProduct_map_zero]
      simp [mul_comm]
    | succ j =>
      simp only [List.length_cons] at hi
      have hji : j < rest.length := by omega
      have hhead : (if (0 : ℕ) = j + 1 then c else 0) = 0 := by simp
      have htail : (List.range rest.length).map
          ((fun m => if m = j + 1 then c else 0) ∘ (fun m => m + 1)) =
          (List.range rest.length).map (fun m => if m = j then c else 0) := by
        apply List.map_congr_left
        intro m _
        simp only [Function.comp_apply, Nat.add_right_cancel_iff]
      rw [hhead, htail]
      simp only [dotProduct, List.zipWith_cons_cons, List.sum_cons, zero_mul,
        zero_add, List.getD_cons_succ]
      exact ih j hji

theorem denseApply_identity (s : List ℝ) :
    denseApply (expIdentityWeights s.length) (List.replicate s.length 0) s =
      s.map (fun y => (0.8 : ℝ) * y) := by
  apply List.ext_getElem
  · simp [denseApply, expIdentityWeights]
  · intro k h1 h2
    have hk : k < s.length := by
      simpa [denseApply, expIdentityWeights] using h1
    simp only [denseApply, expIdentityWeights, List.getElem_zipWith,
      List.getElem_map, List.getElem_range, List.getElem_replicate]
    rw [dotProduct_indicator s k hk]
    rw [List.getD_eq_getElem s 0 hk]
    simp

theorem zipWith_add_replicate_zero_right (v : List ℝ) :
    List.zipWith (· + ·) v (List.replicate v.length 0) = v := by
  induction v with
  | nil => rfl
  | cons a rest ih =>
    simp only [List.length_cons, List.replicate_succ, List.zipWith_cons_cons,
      add_zero]
    exact congrArg _ ih

theorem zipWith_replicate_right {α β γ : Type} (f : α → β → γ) (l : List α) (c : β) :
    List.zipWith f l (List.replicate l.length c) = l.map (fun a => f a c) := by
  induction l with
  | nil => rfl
  | cons a rest ih =>
    simp only [List.length_cons, List.replicate_succ, List.zipWith_cons_cons,
      List.map_cons]
    exact congrArg _ ih

theorem foldl_scaled_sum (v : List ℝ) (a : ℝ) (ps : List ℝ) :
    (ps.map (fun p => v.map (fun z => p * z))).foldl
        (fun acc w => List.zipWith (· + ·) acc w) (v.map (fun z => a * z)) =
      v.map (fun z => (a + ps.sum) * z) := by
  induction ps generalizing a with
  | nil => simp
  | cons p rest ih =>
    simp only [List.map_cons, List.foldl_cons, List.sum_cons]
    have hstep : List.zipWith (· + ·) (v.map (fun z => a * z))
        (v.map (fun z => p * z)) = v.map (fun z => (a + p) * z) := by
      rw [List.zipWith_map_left, List.zipWith_map_right, List.zipWith_same]
      apply List.map_congr_left
      intro z _
      ring
    rw [hstep, ih]
    apply List.map_congr_left
    intro z _
    ring

theorem expBlockApply_zero_embeddings (probs s : List ℝ) (hsum : probs.sum = 1) :
    expBlockApply (expIdentityWeights s.length) (List.replicate s.length 0)
      (List.replicate probs.length (List.replicate s.length 0)) probs s =
      s.map (fun y => Real.tanh ((0.8 : ℝ) * y)) := by
  have hne : probs ≠ [] := by
    intro hnil
    rw [hnil] at hsum
    simp at hsum
  have hnewlen : (denseApply (expIdentityWeights s.length)
      (List.replicate s.length 0) s).length = s.length := by
    rw [denseApply_identity]
    simp
  unfold expBlockApply
  rw [denseApply_identity]
  have hcand : List.zipWith
      (fun (p : ℝ) (wi : List ℝ) =>
        (List.zipWith (· + ·) (s.map (fun y => (0.8 : ℝ) * y)) wi).map
          (fun z => p * Real.tanh z))
      probs (List.replicate probs.length (List.replicate s.length 0)) =
      probs.map (fun p => (s.map (fun y => Real.tanh ((0.8 : ℝ) * y))).map
        (fun z => p * z)) := by
    rw [zipWith_replicate_right]
    apply List.map_congr_left
    intro p _
    have hz : List.zipWith (· + ·) (s.map (fun y => (0.8 : ℝ) * y))
        (List.replicate s.length 0) =
        s.map (fun y => (0.8 : ℝ) * y) := by
      have hlen : s.length = (s.map (fun y => (0.8 : ℝ) * y)).length := by simp
      rw [hlen, zipWith_add_replicate_zero_right]
    rw [hz, List.map_map, List.map_map]
    rfl
  rw [hcand]
  cases hp : probs with
  | nil => exact absurd hp hne
  | cons p rest =>
    simp only [List.map_cons, List.foldl_cons]
    have := foldl_scaled_sum (s.map (fun y => Real.tanh ((0.8 : ℝ) * y))) p rest
    simp only [List.foldl_cons] at this
    rw [this]
    have hsum1 : p + rest.sum = 1 := by
      rw [hp] at hsum
      simpa using hsum
    rw [hsum1]
    simp

/-- C5 counterexample: a stateSize-1, inSize-1 `ExpBlock` with the
`NewExpBlock` initialization and zero input embeddings, constant
probability input `[1]`, initial state `[2]`: after one step the state is
`[tanh 1.6]`, which is strictly below `1`, not `[0.8^1 * 2] = [1.6]` — the
tanh activation wraps the near-identity linear transition, so the state
does not decay linearly as `0.8^n * initialState`. -/
theorem expBlock_decay_counterexample :
    expBlockIterate (expIdentityWeights 1) (List.replicate 1 0)
      (List.replicate 1 (List.replicate 1 0)) [1] 1 [(2 : ℝ)] ≠
      [(0.8 : ℝ) ^ 1 * 2] := by
  have hstep := expBlockApply_zero_embeddings [1] [(2 : ℝ)] (by norm_num)
  have h1 : expBlockIterate (expIdentityWeights 1) (List.replicate 1 0)
      (List.replicate 1 (List.replicate 1 0)) [1] 1 [(2 : ℝ)] =
      [Real.tanh ((0.8 : ℝ) * 2)] := by
    show expBlockIterate (expIdentityWeights 1) (List.replicate 1 0)
      (List.replicate 1 (List.replicate 1 0)) [1] 0
      (expBlockApply (expIdentityWeights 1) (List.replicate 1 0)
        (List.replicate 1 (List.replicate 1 0)) [1] [(2 : ℝ)]) =
      [Real.tanh ((0.8 : ℝ) * 2)]
    rw [show expBlockApply (expIdentityWeights 1) (List.replicate 1 0)
        (List.replicate 1 (List.replicate 1 0)) [1] [(2 : ℝ)] =
        [(2 : ℝ)].map (fun y => Real.tanh ((0.8 : ℝ) * y)) from hstep]
    rfl
  rw [h1]
  intro hcontra
  have heq : Real.tanh ((0.8 : ℝ) * 2) = (0.8 : ℝ) ^ 1 * 2 := by
    have := List.head_eq_of_cons_eq hcontra
    exact this
  have hlt : Real.tanh ((0.8 : ℝ) * 2) < 1 := by
    rw [Real.tanh_eq_sinh_div_cosh, div_lt_one (Real.cosh_pos _)]
    exact Real.sinh_lt_cosh _
  rw [heq] at hlt
  norm_num at hlt

/-- C5 (amended): for an `ExpBlock` with the `NewExpBlock` state-transition
initialization (diagonal `0.8`, zero bias) and zero input embeddings, the
state after `n` steps of a constant probability-vector input (entries
summing to `1`) is the elementwise `n`-fold iterate of
`y ↦ tanh(0.8 * y)` applied to the initial state: the near-identity linear
transition contributes the factor `0.8` inside each step's tanh, not a bare
`0.8^n` decay of the initial state. -/
theorem expBlock_iterate_tanh (stateSize : ℕ) (probs : List ℝ)
    (hsum : probs.sum = 1) (n : ℕ) (s : List ℝ) (hs : s.length = stateSize) :
    expBlockIterate (expIdentityWeights stateSize) (List.replicate stateSize 0)
      (List.replicate probs.length (List.replicate stateSize 0)) probs n s =
      s.map (fun y => (fun z => Real.tanh ((0.8 : ℝ) * z))^[n] y) := by
  induction n generalizing s with
  | zero =>
    simp [expBlockIterate]
  | succ n ih =>
    subst hs
    show expBlockIterate (expIdentityWeights s.length)
        (List.replicate s.length 0)
        (List.replicate probs.length (List.replicate s.length 0)) probs n
        (expBlockApply (expIdentityWeights s.length)
          (List.replicate s.length 0)
          (List.replicate probs.length (List.replicate s.length 0)) probs s) =
      s.map (fun y => (fun z => Real.tanh ((0.8 : ℝ) * z))^[n + 1] y)
    rw [expBlockApply_zero_embeddings probs s hsum]
    have hlen : (s.map (fun y => Real.tanh ((0.8 : ℝ) * y))).length = s.length := by
      simp
    rw [ih _ hlen, List.map_map]
    apply List.map_congr_left
    intro y _
    simp only [Function.comp_apply]
    rw [Function.iterate_succ_apply]

/-- Witness for `expBlock_iterate_tanh`: stateSize 1, constant input `[1]`,
one step from initial state `[0]` stays at `[0]` (`tanh 0 = 0`). -/
theorem expBlock_iterate_tanh_witness :
    expBlockIterate (expIdentityWeights 1) (List.replicate 1 0)
      (List.replicate 1 (List.replicate 1 0)) [1] 1 [(0 : ℝ)] = [0] := by
  have h := expBlock_iterate_tanh 1 [1] (by norm_num) 1 [(0 : ℝ)] rfl
  simpa [Function.iterate_one, Real.tanh_zero] using h

/-! ## C10: `sampleGenSeq` / `sampleVector` (recurrent.go, policy-gradient
variant)

```go
func sampleVector(v linalg.Vector) int {
    n := rand.Float64()
    for i, x := range v {
        n -= math.Exp(x)
        if n < 0 { return i }
    }
    return 0
}

func (r *Recurrent) sampleGenSeq(policyOut seqfunc.Result) [][]linalg.Vector {
    ... for _, vec := range seq {
        choice := sampleVector(vec)
        v := make(linalg.Vector, len(vec))
        v[choice] = 1
        ...
    } ...
}
```

Real numbers model the log-probability vectors because of `math.Exp`; `u`
stands for the `rand.Float64()` draw.  The write `v[choice] = 1` panics in
Go when `choice` is out of range (only possible for an empty `vec`); the
panic is modelled as `none`. -/

noncomputable section

/-- The cumulative-subtraction loop of `sampleVector`: subtract the
exponential of each entry from the running remainder and return the index
where it first goes negative (`none` when it never does). -/
def sampleVectorAux (n : ℝ) : List ℝ → Option ℕ
  | [] => none
  | x :: rest =>
    if n - Real.exp x < 0 then some 0
    else (sampleVectorAux (n - Real.exp x) rest).map (· + 1)

/-- `sampleVector`: the loop above, falling back to index `0` when the
remainder never goes negative. -/
def sampleVector (u : ℝ) (v : List ℝ) : ℕ :=
  (sampleVectorAux u v).getD 0

/-- One vector of `sampleGenSeq`: a zero vector of the same length with a
`1` written at the sampled index; `none` models the index-out-of-range
panic of `v[choice] = 1`. -/
def sampleGenVec (u : ℝ) (vec : List ℝ) : Option (List ℝ) :=
  if sampleVector u vec < vec.length then
    some ((List.range vec.length).map
      (fun (i : ℕ) => if i = sampleVector u vec then (1 : ℝ) else 0))
  else none

end

/-- Collect a list of optional values, failing if any entry failed. -/
def optionList {α : Type} : List (Option α) → Option (List α)
  | [] => some []
  | none :: _ => none
  | some a :: rest => (optionList rest).map (a :: ·)

/-- One sequence of `sampleGenSeq`, with one uniform draw per timestep. -/
noncomputable def sampleGenSeqOne (us : List ℝ) (seq : List (List ℝ)) :
    Option (List (List ℝ)) :=
  optionList (List.zipWith sampleGenVec us seq)

/-- Exactly one entry equal to `1`, all others `0`. -/
def isOneHot (v : List ℝ) : Prop :=
  ∃ i, i < v.length ∧ ∀ j, j < v.length → v.getD j 0 = if j = i then 1 else 0

theorem sampleVectorAux_lt {n : ℝ} {v : List ℝ} {i : ℕ}
    (h : sampleVectorAux n v = some i) : i < v.length := by
  induction v generalizing n i with
  | nil => simp [sampleVectorAux] at h
  | cons x rest ih =>
    rw [sampleVectorAux] at h
    by_cases hneg : n - Real.exp x < 0
    · rw [if_pos hneg] at h
      cases h
      simp
    · rw [if_neg hneg] at h
      cases hrec : sampleVectorAux (n - Real.exp x) rest with
      | none => rw [hrec] at h; simp at h
      | some j =>
        rw [hrec] at h
        have hj : j + 1 = i := by simpa using h
        have := ih hrec
        simp only [List.length_cons]
        omega

theorem sampleVector_lt (u : ℝ) (v : List ℝ) (hne : v ≠ []) :
    sampleVector u v < v.length := by
  have hlen : 0 < v.length := List.length_pos.2 hne
  unfold sampleVector
  cases h : sampleVectorAux u v with
  | none => simpa using hlen
  | some i => simpa using sampleVectorAux_lt h

theorem sampleVectorAux_none {u : ℝ} {v : List ℝ}
    (h : (v.map Real.exp).sum ≤ u) : sampleVectorAux u v = none := by
  induction v generalizing u with
  | nil => rfl
  | cons x rest ih =>
    simp only [List.map_cons, List.sum_cons] at h
    have hsumnn : 0 ≤ (rest.map Real.exp).sum :=
      List.sum_nonneg (by
        intro y hy
        obtain ⟨z, _, hz⟩ := List.mem_map.1 hy
        exact hz ▸ (Real.exp_pos z).le)
    rw [sampleVectorAux, if_neg (by linarith), ih (by linarith)]
    rfl

theorem chooseRandomAux_none {u : ℚ} {ps : List ℚ}
    (hpos : ∀ x ∈ ps, 0 < x) (h : ps.sum ≤ u) : chooseRandomAux u ps = none := by
  induction ps generalizing u with
  | nil => rfl
  | cons x rest ih =>
    simp only [List.sum_cons] at h
    have hsumnn : 0 ≤ rest.sum :=
      List.sum_nonneg (fun y hy => (hpos y (List.mem_cons_of_mem x hy)).le)
    have hx : 0 < x := hpos x (List.mem_cons_self x rest)
    rw [chooseRandomAux, if_neg (by linarith),
      ih (fun y hy => hpos y (List.mem_cons_of_mem x hy)) (by linarith)]
    rfl

theorem sampleGenVec_some (u : ℝ) (v : List ℝ) (hne : v ≠ []) :
    ∃ w, sampleGenVec u v = some w ∧ w.length = v.length ∧ isOneHot w := by
  have hlt := sampleVector_lt u v hne
  refine ⟨(List.range v.length).map
    (fun (i : ℕ) => if i = sampleVector u v then (1 : ℝ) else 0), ?_, ?_, ?_⟩
  · rw [sampleGenVec, if_pos hlt]
  · simp
  · refine ⟨sampleVector u v, by simpa using hlt, ?_⟩
    intro j hj
    have hjlen : j < v.length := by simpa using hj
    rw [List.getD_eq_getElem _ 0 hj]
    simp [List.getElem_range]

/-- C10 counterexample: on the empty vector `sampleVector` falls back to
index `0`, which is NOT in bounds (the vector has no valid index), and
`sampleGenSeq`'s write `v[choice] = 1` is an index-out-of-range panic
(modelled `none`) — so the sampler is not unconditionally in-bounds, only
on nonempty vectors. -/
theorem sampleVector_empty_counterexample :
    sampleVector (1/2) ([] : List ℝ) = 0 ∧
    ¬ sampleVector (1/2) ([] : List ℝ) < ([] : List ℝ).length ∧
    sampleGenVec (1/2) ([] : List ℝ) = none := by
  refine ⟨rfl, by simp [sampleVector, sampleVectorAux], ?_⟩
  rw [sampleGenVec]
  simp [sampleVector, sampleVectorAux]

/-- C10 (amended): for every NONEMPTY vector the index returned by
`sampleVector` is in bounds; when the running remainder never goes
negative (in particular whenever the exponentiated entries sum to at most
the draw) `sampleVector` falls back to index `0`, whereas `OneHotLayer`'s
`chooseRandom` falls back to the LAST index `len - 1`; and on sequences of
nonempty vectors `sampleGenSeq` succeeds and returns sequences of the same
shape in which every vector has exactly one entry equal to `1` and all
other entries `0`. -/
theorem sampleGenSeq_one_hot (u : ℝ) (v : List ℝ) (uq : ℚ) (ps : List ℚ)
    (us : List ℝ) (seq : List (List ℝ))
    (hne : v ≠ [])
    (hvsum : (v.map Real.exp).sum ≤ u)
    (hpos : ∀ x ∈ ps, 0 < x) (hpsum : ps.sum ≤ uq)
    (hlen : us.length = seq.length) (hseq : ∀ w ∈ seq, w ≠ []) :
    sampleVector u v < v.length ∧
    sampleVector u v = 0 ∧
    chooseRandom uq ps = (ps.length : ℤ) - 1 ∧
    ∃ out, sampleGenSeqOne us seq = some out ∧
      List.Forall₂ (fun w pv => w.length = pv.length ∧ isOneHot w) out seq := by
  refine ⟨sampleVector_lt u v hne, ?_, ?_, ?_⟩
  · rw [sampleVector, sampleVectorAux_none hvsum]
    rfl
  · exact chooseRandom_eq_of_none (chooseRandomAux_none hpos hpsum)
  · clear hne hvsum hpos hpsum
    induction seq generalizing us with
    | nil =>
      refine ⟨[], ?_, List.Forall₂.nil⟩
      have : us = [] := List.eq_nil_of_length_eq_zero hlen
      subst this
      rfl
    | cons w rest ih =>
      cases us with
      | nil => simp at hlen
      | cons u0 us' =>
        have hw : w ≠ [] := hseq w (List.mem_cons_self w rest)
        obtain ⟨w0, hw0, hw0len, hw0hot⟩ := sampleGenVec_some u0 w hw
        have hlen' : us'.length = rest.length := by simpa using hlen
        obtain ⟨out', hout', hforall⟩ :=
          ih us' hlen' (fun x hx => hseq x (List.mem_cons_of_mem w hx))
        refine ⟨w0 :: out', ?_, List.Forall₂.cons ⟨hw0len, hw0hot⟩ hforall⟩
        rw [sampleGenSeqOne, List.zipWith_cons_cons, hw0]
        rw [sampleGenSeqOne] at hout'
        simp [optionList, hout']

/-- Witness for `sampleGenSeq_one_hot` at concrete inputs: `v = [0]` with
draw `3` (so `exp 0 = 1 ≤ 3` forces the fallback), `ps = [1/4]` with draw
`2`, and a one-element batch `[[0]]` with draw `1/2`. -/
theorem sampleGenSeq_one_hot_witness :
    sampleVector 3 [(0 : ℝ)] < 1 ∧
    sampleVector 3 [(0 : ℝ)] = 0 ∧
    chooseRandom 2 [(1/4 : ℚ)] = 0 ∧
    ∃ out, sampleGenSeqOne [(1/2 : ℝ)] [[(0 : ℝ)]] = some out ∧
      List.Forall₂ (fun w pv => w.length = pv.length ∧ isOneHot w)
        out [[(0 : ℝ)]] := by
  have h := sampleGenSeq_one_hot 3 [(0 : ℝ)] 2 [(1/4 : ℚ)]
    [(1/2 : ℝ)] [[(0 : ℝ)]]
    (by simp)
    (by norm_num [Real.exp_zero])
    (by
      intro x hx
      simp only [List.mem_singleton] at hx
      subst hx
      norm_num)
    (by norm_num)
    rfl
    (by
      intro w hw
      simp only [List.mem_singleton] at hw
      subst hw
      simp)
  refine ⟨by simpa using h.1, h.2.1, ?_, h.2.2.2⟩
  have := h.2.2.1
  simpa using this

end Gans
